import Mathlib

/-!
Shallow embedding of the dual/triple-tree core of this repository:

* `nbody_simulator_tripletree.h` — the `NbodySimulatorPostponed`, `Delta`,
  `Result`, `Summary` classes of the triple-tree N-body potential summation
  (translated here as plain data aggregates over ℚ-valued closed intervals).
* `kdtree.h` — `KdTreeMidpointBuilder`: `FindBoundingBox_`, the two-pointer
  in-place `Partition_`, and the recursive `Build_` midpoint splitter.

`double` arithmetic is modelled over ℚ: every operation the claims touch is
exact (comparisons, swaps, min/max, midpoints), so ℚ is a faithful carrier.
-/

/-- Modelled from the spec: `core::math::Range` (closed interval of
`core/math/range.h`, not included under `src/`): a lo/hi pair supporting
`Init`, interval sum (`operator+`), set union (`operator|=`, monotone
min/max widening) and derived midpoint `mid()`. -/
structure Core.Math.Range where
  lo : ℚ
  hi : ℚ
deriving DecidableEq, Repr

/-- `Range::operator+`: interval sum, endpointwise. -/
def Core.Math.Range.add (a b : Core.Math.Range) : Core.Math.Range :=
  ⟨a.lo + b.lo, a.hi + b.hi⟩

/-- `Range::operator|=`: set union by min/max widening. -/
def Core.Math.Range.unionR (a b : Core.Math.Range) : Core.Math.Range :=
  ⟨min a.lo b.lo, max a.hi b.hi⟩

/-- `Range::mid()`: midpoint of the interval. -/
def Core.Math.Range.mid (a : Core.Math.Range) : ℚ :=
  (a.lo + a.hi) / 2

/-- `physpack::nbody_simulator::NbodySimulatorPostponed`
(nbody_simulator_tripletree.h, lines 19-80): postponed contribution held on a
node — negative/positive potential intervals plus pruned/used-error scalars. -/
structure NbodySimulatorPostponed where
  negative_potential_ : Core.Math.Range
  positive_potential_ : Core.Math.Range
  pruned_ : ℚ
  used_error_ : ℚ
deriving DecidableEq, Repr

/-- `NbodySimulatorSummary` (nbody_simulator_tripletree.h, lines 241-336):
per-node summary of applied plus postponed contributions. -/
structure NbodySimulatorSummary where
  negative_potential_ : Core.Math.Range
  positive_potential_ : Core.Math.Range
  pruned_ : ℚ
  used_error_ : ℚ
deriving DecidableEq, Repr

/-- `NbodySimulatorSummary::CanSummarize` (lines 264-271): the pruning
predicate.  The body in the source is the single statement `return false;`
regardless of the global configuration, delta, node pair or query results. -/
def NbodySimulatorSummary.CanSummarize {G D T R : Type}
    (s : NbodySimulatorSummary) (global : G) (delta : D)
    (qnode rnode : T) (query_results : R) : Bool :=
  false

/-- `NbodySimulatorSummary::Accumulate(summary_in, postponed_in)`
(lines 310-323).  Faithful to the source: `negative_potential_` is widened
with `|=` (union), but `positive_potential_` is written with plain `=`
(assignment), discarding the prior value; `pruned_` takes a `min`,
`used_error_` a `max`. -/
def NbodySimulatorSummary.Accumulate (s : NbodySimulatorSummary)
    (summary_in : NbodySimulatorSummary)
    (postponed_in : NbodySimulatorPostponed) : NbodySimulatorSummary :=
  { negative_potential_ :=
      s.negative_potential_.unionR
        (summary_in.negative_potential_.add postponed_in.negative_potential_)
    positive_potential_ :=
      summary_in.positive_potential_.add postponed_in.positive_potential_
    pruned_ := min s.pruned_ (summary_in.pruned_ + postponed_in.pruned_)
    used_error_ := max s.used_error_
      (summary_in.used_error_ + postponed_in.used_error_) }

/-- `NbodySimulatorDelta` (lines 82-118): three per-participant potential
ranges and accounting scalars. -/
structure NbodySimulatorDelta where
  negative_potential_ : List Core.Math.Range
  positive_potential_ : List Core.Math.Range
  pruned_ : List ℚ
  used_error_ : List ℚ
deriving DecidableEq, Repr

/-- `NbodySimulatorDelta::DeterministicCompute` (lines 110-117).  The body of
the method in the source is empty, so the `Delta` object is left exactly as it
was; the metric, global configuration and the triple of node bounds are
ignored. -/
def NbodySimulatorDelta.DeterministicCompute {M G T : Type}
    (delta : NbodySimulatorDelta) (metric : M) (global : G)
    (triple_range_distance_sq : T) : NbodySimulatorDelta :=
  delta

/-- `NbodySimulatorResult` (lines 120-174): per-query-point accumulators. -/
structure NbodySimulatorResult where
  negative_potential_ : List Core.Math.Range
  positive_potential_ : List Core.Math.Range
  potential_e_ : List ℚ
  pruned_ : List ℚ
  used_error_ : List ℚ
deriving DecidableEq, Repr

/-- `NbodySimulatorResult::PostProcess` (lines 128-135): writes
`potential_e_[q_index] = negative_potential_[q_index].mid() +
positive_potential_[q_index].mid()` and touches nothing else. -/
def NbodySimulatorResult.PostProcess {M G : Type}
    (r : NbodySimulatorResult) (metric : M) (q_index : Nat) (global : G) :
    NbodySimulatorResult :=
  { r with
      potential_e_ := r.potential_e_.set q_index
        ((r.negative_potential_.getD q_index ⟨0, 0⟩).mid +
          (r.positive_potential_.getD q_index ⟨0, 0⟩).mid) }

/-! ## kd-tree builder (`kdtree.h`, `KdTreeMidpointBuilder`)

The source file is an `@experimental` header with a handful of evident
transcription slips that keep it from compiling as C++; the model restores
only those slips, each noted where it matters:
* the retreat loop at line 114 is missing its opening brace — restored to
  mirror the advance loop at lines 105-112;
* `bool leaf` at line 153 is never initialised on the paths that do not
  split — modelled as the evident default `true` (the split branch at
  line 214 is the only place writing `false`).
The per-node `Statistic` calls (`stat().Init/Accumulate/Postprocess`) touch
no field any claim mentions and are omitted. -/

/-- A point, fastlib `Vector`: the list of its ℚ coordinates. -/
abbrev Vec := List ℚ

/-- `Vector::get(d)`: coordinate `d` of a point (0 outside its length). -/
def vget (v : Vec) (d : Nat) : ℚ :=
  v.getD d 0

/-- Modelled from the spec: one dimension of fastlib's `DHrectBound`
(`spbounds.h`, not included under `src/`): a closed interval with an
explicit empty sentinel `none` standing for the `(DBL_MAX, -DBL_MAX)`
initialisation; widening by a coordinate is the monotone min/max union,
`width` and `mid` are derived. -/
abbrev DRange := Option (ℚ × ℚ)

/-- Widen a one-dimensional range to cover the coordinate `x`. -/
def DRange.widen : DRange → ℚ → DRange
  | none, x => some (x, x)
  | some (lo, hi), x => some (min lo x, max hi x)

/-- `DRange::width()`: `hi - lo` (0 for the empty sentinel). -/
def DRange.width : DRange → ℚ
  | none => 0
  | some (lo, hi) => hi - lo

/-- `DRange::mid()`: `(lo + hi) / 2` (0 for the empty sentinel). -/
def DRange.mid : DRange → ℚ
  | none => 0
  | some (lo, hi) => (lo + hi) / 2

/-- Membership of a coordinate in a one-dimensional range. -/
def DRange.memR (x : ℚ) : DRange → Prop
  | none => False
  | some (lo, hi) => lo ≤ x ∧ x ≤ hi

instance (x : ℚ) (r : DRange) : Decidable (DRange.memR x r) := by
  cases r with
  | none => exact inferInstanceAs (Decidable False)
  | some p => exact inferInstanceAs (Decidable (p.1 ≤ x ∧ x ≤ p.2))

/-- Modelled from the spec: fastlib `DHrectBound` — an axis-aligned
interval per dimension. -/
abbrev Bound := List DRange

/-- `Bound::Init(dim)`: every dimension starts at the empty sentinel. -/
def Bound.initB (dim : Nat) : Bound :=
  List.replicate dim none

/-- `*bound |= *v` (union with a point): widen every dimension by the
point's coordinate there. -/
def Bound.unionPt (b : Bound) (v : Vec) : Bound :=
  (List.range b.length).map (fun d => DRange.widen (b.getD d none) (vget v d))

/-- A point lies inside a bound: every dimension's coordinate is in that
dimension's range. -/
def Bound.containsB (b : Bound) (v : Vec) : Prop :=
  ∀ d, d < b.length → DRange.memR (vget v d) (b.getD d none)

instance (b : Bound) (v : Vec) : Decidable (Bound.containsB b v) :=
  inferInstanceAs (Decidable (∀ d, d < b.length → DRange.memR (vget v d) (b.getD d none)))

/-- `KdTreeMidpointBuilder::FindBoundingBox_` (kdtree.h, lines 78-87):
`for i in [first, first+count)` do `*bound |= points_[i]`. -/
def FindBoundingBox_ (pts : List Vec) (first count : Nat) (b : Bound) : Bound :=
  (List.range count).foldl (fun acc k => acc.unionPt (pts.getD (first + k) [])) b

/-- Mutable state of `Partition_`: the point array `points_`, the parallel
payload array `point_infos_`, and the two growing child bounds passed in by
`Build_`. -/
structure PState (α : Type) where
  points_ : List Vec
  point_infos_ : List α
  left_bound : Bound
  right_bound : Bound
deriving DecidableEq

/-- Read the point at an `index_t` cursor (cursors are signed in the
source; reads at a crossed cursor are discarded by the loop breaks). -/
def ptAt {α : Type} (s : PState α) (i : Int) : Vec :=
  s.points_.getD i.toNat []

/-- Swap entries `i` and `j` of a list (identity if either is out of
range, mirroring that the source only swaps live cursor positions). -/
def listSwap {β : Type} (l : List β) (i j : Nat) : List β :=
  match l[i]?, l[j]? with
  | some a, some b => (l.set i b).set j a
  | _, _ => l

/-- The advance loop of `Partition_` (kdtree.h, lines 105-112): step the
left cursor right while the scanned coordinate is below `splitvalue`,
accumulating each passed point into `left_bound`; break once the scanned
coordinate reaches `splitvalue` or the cursors cross.  Fuelled so that
termination (claim C3) is a theorem, not an assumption. -/
def advanceF {α : Type} (fuel : Nat) (split_dim : Nat) (sv : ℚ) (right : Int)
    (s : PState α) (left : Int) : Option (Int × PState α) :=
  match fuel with
  | 0 => none
  | fuel + 1 =>
    let v := ptAt s left
    if sv ≤ vget v split_dim ∨ right < left then some (left, s)
    else advanceF fuel split_dim sv right
      { s with left_bound := s.left_bound.unionPt v } (left + 1)

/-- The retreat loop of `Partition_` (kdtree.h, lines 114-121, with the
missing opening brace restored): step the right cursor left while the
scanned coordinate is at/above `splitvalue`, accumulating into
`right_bound`; break once the coordinate drops below `splitvalue` or the
cursors cross. -/
def retreatF {α : Type} (fuel : Nat) (split_dim : Nat) (sv : ℚ) (left : Int)
    (s : PState α) (right : Int) : Option (Int × PState α) :=
  match fuel with
  | 0 => none
  | fuel + 1 =>
    let v := ptAt s right
    if vget v split_dim < sv ∨ right < left then some (right, s)
    else retreatF fuel split_dim sv left
      { s with right_bound := s.right_bound.unionPt v } (right - 1)

/-- The swap body of `Partition_`'s outer loop (kdtree.h, lines 128-134):
`left_v->SwapValues(right_v)` plus `point_infos_.Swap(left, right)` swap the
two scanned points together with their payloads, then both swapped values
are accumulated into their sides' bounds (`*left_bound |= *left_v`,
`*right_bound |= *right_v` — reading the post-swap contents). -/
def swapStep {α : Type} (s2 : PState α) (l r : Int) : PState α :=
  let s3 : PState α :=
    { s2 with
        points_ := listSwap s2.points_ l.toNat r.toNat
        point_infos_ := listSwap s2.point_infos_ l.toNat r.toNat }
  { s3 with
      left_bound := s3.left_bound.unionPt (ptAt s3 l)
      right_bound := s3.right_bound.unionPt (ptAt s3 r) }

/-- The outer `for (;;)` loop of `Partition_` (kdtree.h, lines 101-142):
advance, retreat, break when the cursors cross, otherwise swap the two
scanned points together with their payloads (`SwapValues` plus
`point_infos_.Swap`), accumulate the swapped values into both bounds, and
step the right cursor.  Returns the final cursors and state; the source
returns `left` after `DEBUG_ASSERT(left == right + 1)`, and the final
right cursor is exposed here so that assert is statable. -/
def ploopF {α : Type} (fuel : Nat) (split_dim : Nat) (sv : ℚ) (innerFuel : Nat)
    (s : PState α) (left right : Int) : Option (Int × Int × PState α) :=
  match fuel with
  | 0 => none
  | fuel + 1 =>
    match advanceF innerFuel split_dim sv right s left with
    | none => none
    | some (l, s1) =>
      match retreatF innerFuel split_dim sv l s1 right with
      | none => none
      | some (r, s2) =>
        if r < l then some (l, r, s2)
        else ploopF fuel split_dim sv innerFuel (swapStep s2 l r) l (r - 1)

/-- `KdTreeMidpointBuilder::Partition_` (kdtree.h, lines 88-147): the
two-pointer scan over `[first, first+count)`, started at cursors `first`
and `first+count-1`, with fuel `count+1` outer iterations and `count+2`
inner steps (proved sufficient in `Partition_spec`). -/
def Partition_ {α : Type} (split_dim : Nat) (splitvalue : ℚ)
    (first count : Nat) (s : PState α) : Option (Int × Int × PState α) :=
  ploopF (count + 1) split_dim splitvalue (count + 2) s
    (first : Int) ((first : Int) + (count : Int) - 1)

/-- The widest-dimension scan of `Build_` (kdtree.h, lines 158-169):
fold over `d < dim`, keeping the first dimension of strictly maximal
width, starting from `max_width = -1` (the `BIG_BAD_NUMBER` initial
`split_dim` is modelled as `dim`, an out-of-range sentinel). -/
def widestDim (b : Bound) (dim : Nat) : Nat × ℚ :=
  (List.range dim).foldl
    (fun acc d =>
      let w := (b.getD d none).width
      if acc.2 < w then (d, w) else acc)
    (dim, -1)

/-- A node of the built tree: `begin`/`count` index range and the bound,
with children exactly when `Build_` split. -/
inductive KdNode where
  | leaf (begin_ count : Nat) (bound : Bound)
  | node (begin_ count : Nat) (bound : Bound) (lt rt : KdNode)
deriving DecidableEq

/-- `node->begin()`. -/
def KdNode.nbegin : KdNode → Nat
  | .leaf b _ _ => b
  | .node b _ _ _ _ => b

/-- `node->count()`. -/
def KdNode.ncount : KdNode → Nat
  | .leaf _ c _ => c
  | .node _ c _ _ _ => c

/-- `node->bound()`. -/
def KdNode.nbound : KdNode → Bound
  | .leaf _ _ bd => bd
  | .node _ _ bd _ _ => bd

/-- `KdTreeMidpointBuilder::Build_(node_i)` (kdtree.h, lines 149-228):
if the node's count exceeds `leaf_size_`, find the widest dimension and,
when its width is nonzero, split at its midpoint with `Partition_`
(children bounds freshly `Init(dim_)`-ed), give the left child range
`(begin, split_col - begin)` and the right child `(split_col,
end - split_col)`, and recurse on both; otherwise the node is a leaf
(`bool leaf` is modelled as defaulting to `true`, see the section note).
Fuelled: the recursion depth is not structurally bounded, claims about
built trees are conditional on the build returning. -/
def buildF {α : Type} (fuel : Nat) (leaf_size dim : Nat)
    (pts : List Vec) (infos : List α) (begin_ count : Nat) (bound : Bound) :
    Option (KdNode × List Vec × List α) :=
  match fuel with
  | 0 => none
  | fuel + 1 =>
    if leaf_size < count then
      let sd := widestDim bound dim
      if sd.2 ≠ 0 then
        let split_val := (bound.getD sd.1 none).mid
        match Partition_ sd.1 split_val begin_ count
            ⟨pts, infos, Bound.initB dim, Bound.initB dim⟩ with
        | none => none
        | some (split_col, _, s') =>
          match buildF fuel leaf_size dim s'.points_ s'.point_infos_
              begin_ (split_col.toNat - begin_) s'.left_bound with
          | none => none
          | some (lt, pts1, infos1) =>
            match buildF fuel leaf_size dim pts1 infos1
                split_col.toNat (begin_ + count - split_col.toNat)
                s'.right_bound with
            | none => none
            | some (rt, pts2, infos2) =>
              some (KdNode.node begin_ count bound lt rt, pts2, infos2)
      else some (KdNode.leaf begin_ count bound, pts, infos)
    else some (KdNode.leaf begin_ count bound, pts, infos)

/-- `KdTreeMidpointBuilder::Build()` (kdtree.h, lines 230-241): root node
over `(0, N)`, bound `Init(dim)` then `FindBoundingBox_` over all points,
then `Build_(0)`; fuelled with `N + 1`. -/
def InitBuild {α : Type} (leaf_size dim : Nat)
    (pts : List Vec) (infos : List α) : Option (KdNode × List Vec × List α) :=
  let rootBound := FindBoundingBox_ pts 0 pts.length (Bound.initB dim)
  buildF (pts.length + 1) leaf_size dim pts infos 0 pts.length rootBound

/-- Every node of the (sub)tree has its index range inside `[lo, hi)`. -/
def KdNode.within (lo hi : Nat) : KdNode → Prop
  | .leaf b c _ => lo ≤ b ∧ b + c ≤ hi
  | .node b c _ lt rt => lo ≤ b ∧ b + c ≤ hi ∧ lt.within lo hi ∧ rt.within lo hi

/-- Bound containment over a point array: at every node of the tree, every
point whose index lies in the node's `(begin, count)` range lies inside the
node's bound. -/
def TreeContains (pts : List Vec) : KdNode → Prop
  | .leaf b c bd => ∀ j, b ≤ j → j < b + c → Bound.containsB bd (pts.getD j [])
  | .node b c bd lt rt =>
      (∀ j, b ≤ j → j < b + c → Bound.containsB bd (pts.getD j [])) ∧
      TreeContains pts lt ∧ TreeContains pts rt

/-- Partition conservation at every internal node: the left child starts at
the parent's `begin`, the right child starts where the left child ends, and
the two counts sum to the parent's count. -/
def KdNode.childrenOK : KdNode → Prop
  | .leaf _ _ _ => True
  | .node b c _ lt rt =>
      lt.nbegin = b ∧ rt.nbegin = b + lt.ncount ∧ lt.ncount + rt.ncount = c ∧
      lt.childrenOK ∧ rt.childrenOK

/-- Total point count over the leaves of a tree. -/
def KdNode.leafSum : KdNode → Nat
  | .leaf _ c _ => c
  | .node _ _ _ lt rt => lt.leafSum + rt.leafSum

/-- Decidability of `KdNode.within`, by structural recursion. -/
def KdNode.decWithin (lo hi : Nat) : (t : KdNode) → Decidable (t.within lo hi)
  | .leaf b c _ => inferInstanceAs (Decidable (lo ≤ b ∧ b + c ≤ hi))
  | .node b c _ lt rt =>
      have hl := decWithin lo hi lt
      have hr := decWithin lo hi rt
      inferInstanceAs (Decidable (lo ≤ b ∧ b + c ≤ hi ∧ lt.within lo hi ∧ rt.within lo hi))

instance (lo hi : Nat) (t : KdNode) : Decidable (t.within lo hi) :=
  KdNode.decWithin lo hi t

/-- Decidability of `TreeContains`, by structural recursion. -/
def KdNode.decTreeContains (pts : List Vec) :
    (t : KdNode) → Decidable (TreeContains pts t)
  | .leaf b c bd =>
      inferInstanceAs (Decidable (∀ j, b ≤ j → j < b + c → Bound.containsB bd (pts.getD j [])))
  | .node b c bd lt rt =>
      have hl := decTreeContains pts lt
      have hr := decTreeContains pts rt
      inferInstanceAs (Decidable (_ ∧ TreeContains pts lt ∧ TreeContains pts rt))

instance (pts : List Vec) (t : KdNode) : Decidable (TreeContains pts t) :=
  KdNode.decTreeContains pts t

/-- Decidability of `KdNode.childrenOK`, by structural recursion. -/
def KdNode.decChildrenOK : (t : KdNode) → Decidable t.childrenOK
  | .leaf _ _ _ => inferInstanceAs (Decidable True)
  | .node b c _ lt rt =>
      have hl := decChildrenOK lt
      have hr := decChildrenOK rt
      inferInstanceAs (Decidable (_ ∧ _ ∧ _ ∧ lt.childrenOK ∧ rt.childrenOK))

instance (t : KdNode) : Decidable t.childrenOK :=
  KdNode.decChildrenOK t

/-! ## Theorems -/

/-- Claim C1 (code evaluation): the pruning predicate
`NbodySimulatorSummary::CanSummarize` returns `false` for every global
configuration, delta, pair of tree nodes and query-result state — its body
is the stub `return false;` — so no combination is ever judged prunable and
the claimed prune-and-return behaviour never occurs. -/
theorem CanSummarize_always_false {G D T R : Type} (s : NbodySimulatorSummary)
    (global : G) (delta : D) (qnode rnode : T) (query_results : R) :
    s.CanSummarize global delta qnode rnode query_results = false :=
  rfl

/-- Claim C2 (code evaluation): `NbodySimulatorDelta::DeterministicCompute`
has an empty body, so for every metric, global context and triple of node
bounds it leaves the `Delta` exactly as it was — it computes no bound at
all, provable or otherwise. -/
theorem DeterministicCompute_is_noop {M G T : Type} (delta : NbodySimulatorDelta)
    (metric : M) (global : G) (triple_range_distance_sq : T) :
    delta.DeterministicCompute metric global triple_range_distance_sq = delta :=
  rfl

/-- Claim C6 (code evaluation): `NbodySimulatorSummary::Accumulate(summary_in,
postponed_in)` is not symmetric.  At a concrete input with prior positive
range `[0,5]`, child positive range `[1,2]` and postponed `[0,0]`, the code
overwrites `positive_potential_` with `[1,2]` — not the union `[0,5]` the
claim requires — while `negative_potential_` is correctly unioned with the
prior value. -/
theorem Accumulate_positive_overwritten :
    (NbodySimulatorSummary.Accumulate ⟨⟨0, 0⟩, ⟨0, 5⟩, 0, 0⟩
        ⟨⟨0, 0⟩, ⟨1, 2⟩, 0, 0⟩ ⟨⟨0, 0⟩, ⟨0, 0⟩, 0, 0⟩).positive_potential_ =
      ⟨1, 2⟩ ∧
    (NbodySimulatorSummary.Accumulate ⟨⟨0, 0⟩, ⟨0, 5⟩, 0, 0⟩
        ⟨⟨0, 0⟩, ⟨1, 2⟩, 0, 0⟩ ⟨⟨0, 0⟩, ⟨0, 0⟩, 0, 0⟩).positive_potential_ ≠
      Core.Math.Range.unionR ⟨0, 5⟩ (Core.Math.Range.add ⟨1, 2⟩ ⟨0, 0⟩) ∧
    (NbodySimulatorSummary.Accumulate ⟨⟨0, 0⟩, ⟨0, 5⟩, 0, 0⟩
        ⟨⟨0, 0⟩, ⟨1, 2⟩, 0, 0⟩ ⟨⟨0, 0⟩, ⟨0, 0⟩, 0, 0⟩).negative_potential_ =
      Core.Math.Range.unionR ⟨0, 0⟩ (Core.Math.Range.add ⟨0, 0⟩ ⟨0, 0⟩) := by
  refine ⟨?_, ?_, ?_⟩ <;>
    simp [NbodySimulatorSummary.Accumulate, Core.Math.Range.add,
      Core.Math.Range.unionR, Core.Math.Range.mk.injEq]

/-- Claim C10: for an in-range query index `q`,
`NbodySimulatorResult::PostProcess` sets `potential_e_[q]` to the midpoint of
the accumulated negative-potential interval plus the midpoint of the
accumulated positive-potential interval for `q`, and leaves everything else —
the two interval vectors, `pruned_`, `used_error_`, and every other
`potential_e_` entry — unchanged. -/
theorem PostProcess_sets_midpoint_sum {M G : Type} (metric : M) (global : G)
    (r : NbodySimulatorResult) (q : Nat) (hq : q < r.potential_e_.length) :
    (r.PostProcess metric q global).negative_potential_ = r.negative_potential_ ∧
    (r.PostProcess metric q global).positive_potential_ = r.positive_potential_ ∧
    (r.PostProcess metric q global).pruned_ = r.pruned_ ∧
    (r.PostProcess metric q global).used_error_ = r.used_error_ ∧
    (r.PostProcess metric q global).potential_e_[q]? =
      some ((r.negative_potential_.getD q ⟨0, 0⟩).mid +
        (r.positive_potential_.getD q ⟨0, 0⟩).mid) ∧
    ∀ i, i ≠ q → (r.PostProcess metric q global).potential_e_[i]? =
      r.potential_e_[i]? := by
  refine ⟨rfl, rfl, rfl, rfl, ?_, ?_⟩
  · exact List.getElem?_set_eq_of_lt _ hq
  · intro i hi
    exact List.getElem?_set_ne (fun h => hi h.symm)

/-- Witness for C10: `PostProcess` applied to a concrete one-entry result
with negative interval `[1,3]` and positive interval `[0,2]`. -/
theorem PostProcess_sets_midpoint_sum_witness :
    ((⟨[⟨1, 3⟩], [⟨0, 2⟩], [9], [7], [4]⟩ :
        NbodySimulatorResult).PostProcess (0 : Nat) 0 (0 : Nat)).negative_potential_ =
      [⟨1, 3⟩] ∧
    ((⟨[⟨1, 3⟩], [⟨0, 2⟩], [9], [7], [4]⟩ :
        NbodySimulatorResult).PostProcess (0 : Nat) 0 (0 : Nat)).positive_potential_ =
      [⟨0, 2⟩] ∧
    ((⟨[⟨1, 3⟩], [⟨0, 2⟩], [9], [7], [4]⟩ :
        NbodySimulatorResult).PostProcess (0 : Nat) 0 (0 : Nat)).pruned_ = [7] ∧
    ((⟨[⟨1, 3⟩], [⟨0, 2⟩], [9], [7], [4]⟩ :
        NbodySimulatorResult).PostProcess (0 : Nat) 0 (0 : Nat)).used_error_ = [4] ∧
    ((⟨[⟨1, 3⟩], [⟨0, 2⟩], [9], [7], [4]⟩ :
        NbodySimulatorResult).PostProcess (0 : Nat) 0 (0 : Nat)).potential_e_[0]? =
      some (Core.Math.Range.mid ⟨1, 3⟩ + Core.Math.Range.mid ⟨0, 2⟩) ∧
    ∀ i, i ≠ 0 →
      ((⟨[⟨1, 3⟩], [⟨0, 2⟩], [9], [7], [4]⟩ :
          NbodySimulatorResult).PostProcess (0 : Nat) 0 (0 : Nat)).potential_e_[i]? =
        ([9] : List ℚ)[i]? :=
  PostProcess_sets_midpoint_sum 0 0 ⟨[⟨1, 3⟩], [⟨0, 2⟩], [9], [7], [4]⟩ 0
    (by decide)

/-! ### Bound lemmas -/

theorem DRange.memR_widen_self (r : DRange) (x : ℚ) : DRange.memR x (r.widen x) := by
  cases r with
  | none => exact ⟨le_refl x, le_refl x⟩
  | some p =>
      obtain ⟨lo, hi⟩ := p
      exact ⟨min_le_right _ _, le_max_right _ _⟩

theorem DRange.memR_widen_mono {y : ℚ} {r : DRange} (x : ℚ)
    (h : DRange.memR y r) : DRange.memR y (r.widen x) := by
  cases r with
  | none => exact h.elim
  | some p =>
      obtain ⟨lo, hi⟩ := p
      exact ⟨le_trans (min_le_left _ _) h.1, le_trans h.2 (le_max_left _ _)⟩

theorem Bound.length_unionPt (b : Bound) (v : Vec) :
    (b.unionPt v).length = b.length := by
  simp [Bound.unionPt]

theorem Bound.getD_unionPt (b : Bound) (v : Vec) {d : Nat} (hd : d < b.length) :
    (b.unionPt v).getD d none = (b.getD d none).widen (vget v d) := by
  simp [Bound.unionPt, List.getD_eq_getElem?_getD, List.getElem?_map,
    List.getElem?_range hd]

theorem Bound.containsB_unionPt_self (b : Bound) (v : Vec) :
    (b.unionPt v).containsB v := by
  intro d hd
  rw [Bound.length_unionPt] at hd
  rw [Bound.getD_unionPt b v hd]
  exact DRange.memR_widen_self _ _

theorem Bound.containsB_unionPt_mono {b : Bound} {w : Vec} (v : Vec)
    (h : b.containsB w) : (b.unionPt v).containsB w := by
  intro d hd
  rw [Bound.length_unionPt] at hd
  rw [Bound.getD_unionPt b v hd]
  exact DRange.memR_widen_mono _ (h d hd)

/-! ### FindBoundingBox_ lemmas -/

theorem FindBoundingBox_succ (pts : List Vec) (first count : Nat) (b : Bound) :
    FindBoundingBox_ pts first (count + 1) b =
      (FindBoundingBox_ pts first count b).unionPt (pts.getD (first + count) []) := by
  simp [FindBoundingBox_, List.range_succ]

theorem FindBoundingBox_length (pts : List Vec) (first count : Nat) (b : Bound) :
    (FindBoundingBox_ pts first count b).length = b.length := by
  induction count with
  | zero => rfl
  | succ n ih => rw [FindBoundingBox_succ, Bound.length_unionPt, ih]

theorem FindBoundingBox_mono (pts : List Vec) (first count : Nat) {b : Bound}
    {w : Vec} (h : b.containsB w) :
    (FindBoundingBox_ pts first count b).containsB w := by
  induction count with
  | zero => exact h
  | succ n ih => rw [FindBoundingBox_succ]; exact Bound.containsB_unionPt_mono _ ih

theorem FindBoundingBox_contains (pts : List Vec) (first count : Nat) (b : Bound) :
    ∀ j, first ≤ j → j < first + count →
      (FindBoundingBox_ pts first count b).containsB (pts.getD j []) := by
  induction count with
  | zero => intro j h1 h2; omega
  | succ n ih =>
      intro j h1 h2
      rw [FindBoundingBox_succ]
      by_cases hj : j < first + n
      · exact Bound.containsB_unionPt_mono _ (ih j h1 hj)
      · have : j = first + n := by omega
        subst this
        exact Bound.containsB_unionPt_self _ _

/-! ### widestDim lemmas -/

theorem widestDim_fold_keep (b : Bound) (l : List Nat) (init : Nat × ℚ)
    (hz : init.2 = 0) (h : ∀ d ∈ l, (b.getD d none).width = 0) :
    l.foldl
      (fun acc d =>
        if acc.2 < (b.getD d none).width then (d, (b.getD d none).width)
        else acc) init = init := by
  induction l with
  | nil => rfl
  | cons a t ih =>
      have ha : (b.getD a none).width = 0 := h a (List.mem_cons_self _ _)
      simp only [List.foldl_cons, ha, hz]
      rw [if_neg (by norm_num)]
      exact ih (fun d hd => h d (List.mem_cons_of_mem _ hd))

theorem widestDim_allzero (b : Bound) (dim : Nat) (hdim : 1 ≤ dim)
    (h : ∀ d, d < dim → (b.getD d none).width = 0) :
    widestDim b dim = (0, 0) := by
  obtain ⟨n, rfl⟩ : ∃ n, dim = n + 1 := ⟨dim - 1, by omega⟩
  have h0 : (b.getD 0 none).width = 0 := h 0 (by omega)
  unfold widestDim
  rw [List.range_succ_eq_map]
  simp only [List.foldl_cons, h0]
  rw [if_pos (by norm_num)]
  exact widestDim_fold_keep b _ _ rfl
    (by
      intro d hd
      simp only [List.mem_map, List.mem_range] at hd
      obtain ⟨m, hm, rfl⟩ := hd
      exact h (m + 1) (by omega))

/-! ### listSwap lemmas -/

theorem listSwap_length {β : Type} (l : List β) (i j : Nat) :
    (listSwap l i j).length = l.length := by
  unfold listSwap
  cases h1 : l[i]? <;> cases h2 : l[j]? <;> simp

theorem listSwap_getElem?_of_ne {β : Type} (l : List β) (i j k : Nat)
    (h1 : k ≠ i) (h2 : k ≠ j) : (listSwap l i j)[k]? = l[k]? := by
  unfold listSwap
  cases hi : l[i]? with
  | none => rfl
  | some a =>
      cases hj : l[j]? with
      | none => rfl
      | some b =>
          rw [List.getElem?_set_ne (fun h => h2 h.symm),
            List.getElem?_set_ne (fun h => h1 h.symm)]

theorem listSwap_oob_eq {β : Type} (l : List β) (i j : Nat)
    (h : l[i]? = none ∨ l[j]? = none) : listSwap l i j = l := by
  unfold listSwap
  rcases h with h | h
  · rw [h]
  · rw [h]; cases l[i]? <;> rfl

theorem listSwap_getElem?_full {β : Type} (l : List β) (i j : Nat)
    (hi : i < l.length) (hj : j < l.length) (k : Nat) :
    (listSwap l i j)[k]? = if k = j then l[i]? else if k = i then l[j]? else l[k]? := by
  have hi' : l[i]? = some (l.get ⟨i, hi⟩) := List.getElem?_eq_getElem hi
  have hj' : l[j]? = some (l.get ⟨j, hj⟩) := List.getElem?_eq_getElem hj
  unfold listSwap
  rw [hi', hj']
  by_cases hkj : k = j
  · subst hkj
    rw [if_pos rfl, List.getElem?_set_eq_of_lt _ (by simp [hj])]
  · rw [if_neg hkj, List.getElem?_set_ne (fun h => hkj h.symm)]
    by_cases hki : k = i
    · subst hki
      rw [if_pos rfl, List.getElem?_set_eq_of_lt _ hi]
    · rw [if_neg hki, List.getElem?_set_ne (fun h => hki h.symm)]

theorem cons_set_perm {β : Type} (dflt : β) :
    ∀ (t : List β) (m : Nat) (x : β), m < t.length →
      List.Perm (t.getD m dflt :: t.set m x) (x :: t) := by
  intro t
  induction t with
  | nil => intro m x hm; simp at hm
  | cons a u ih =>
      intro m x hm
      cases m with
      | zero => exact List.Perm.swap _ _ _
      | succ n =>
          have hn : n < u.length := by simpa using hm
          show List.Perm (u.getD n dflt :: a :: u.set n x) (x :: a :: u)
          have s1 : List.Perm (u.getD n dflt :: a :: u.set n x)
              (a :: u.getD n dflt :: u.set n x) := List.Perm.swap _ _ _
          have s2 : List.Perm (a :: u.getD n dflt :: u.set n x) (a :: x :: u) :=
            (ih n x hn).cons a
          have s3 : List.Perm (a :: x :: u) (x :: a :: u) := List.Perm.swap _ _ _
          exact (s1.trans s2).trans s3

theorem swap_sets_perm {β : Type} (dflt : β) :
    ∀ (l : List β) (i j : Nat), i < l.length → j < l.length →
      List.Perm ((l.set i (l.getD j dflt)).set j (l.getD i dflt)) l := by
  intro l
  induction l with
  | nil => intro i j hi hj; simp at hi
  | cons a t ih =>
      intro i j hi hj
      cases i with
      | zero =>
          cases j with
          | zero => simp
          | succ m =>
              have hm : m < t.length := by simpa using hj
              show List.Perm (t.getD m dflt :: t.set m a) (a :: t)
              exact cons_set_perm dflt t m a hm
      | succ n =>
          have hn : n < t.length := by simpa using hi
          cases j with
          | zero =>
              show List.Perm (t.getD n dflt :: t.set n a) (a :: t)
              exact cons_set_perm dflt t n a hn
          | succ m =>
              have hm : m < t.length := by simpa using hj
              exact ((ih n m hn hm)).cons a

theorem listSwap_perm {β : Type} (l : List β) (i j : Nat) :
    List.Perm (listSwap l i j) l := by
  cases hi : l[i]? with
  | none => rw [listSwap_oob_eq l i j (Or.inl hi)]
  | some a =>
      cases hj : l[j]? with
      | none => rw [listSwap_oob_eq l i j (Or.inr hj)]
      | some b =>
          have hi' : i < l.length := by
            rcases List.getElem?_eq_some.mp hi with ⟨h, _⟩; exact h
          have hj' : j < l.length := by
            rcases List.getElem?_eq_some.mp hj with ⟨h, _⟩; exact h
          have ha : l.getD i a = a := by
            rw [List.getD_eq_getElem?_getD, hi]; rfl
          have hb : l.getD j a = b := by
            rw [List.getD_eq_getElem?_getD, hj]; rfl
          unfold listSwap
          rw [hi, hj]
          have := swap_sets_perm a l i j hi' hj'
          rw [ha, hb] at this
          exact this

theorem zip_getElem? {β γ : Type} (A : List β) (B : List γ) (k : Nat) :
    (A.zip B)[k]? = (A[k]?).bind (fun a => (B[k]?).map (Prod.mk a)) := by
  rw [List.zip_eq_zipWith, List.getElem?_zipWith]
  cases A[k]? <;> cases B[k]? <;> rfl

theorem zip_listSwap {β γ : Type} (A : List β) (B : List γ)
    (h : A.length = B.length) (i j : Nat) :
    (listSwap A i j).zip (listSwap B i j) = listSwap (A.zip B) i j := by
  by_cases hi : i < A.length
  · by_cases hj : j < A.length
    · have hiB : i < B.length := h ▸ hi
      have hjB : j < B.length := h ▸ hj
      have hiZ : i < (A.zip B).length := by rw [List.length_zip]; omega
      have hjZ : j < (A.zip B).length := by rw [List.length_zip]; omega
      apply List.ext_getElem?
      intro k
      rw [zip_getElem?, listSwap_getElem?_full A i j hi hj k,
        listSwap_getElem?_full B i j hiB hjB k,
        listSwap_getElem?_full (A.zip B) i j hiZ hjZ k]
      by_cases hkj : k = j
      · rw [if_pos hkj, if_pos hkj, if_pos hkj, zip_getElem?]
      · rw [if_neg hkj, if_neg hkj, if_neg hkj]
        by_cases hki : k = i
        · rw [if_pos hki, if_pos hki, if_pos hki, zip_getElem?]
        · rw [if_neg hki, if_neg hki, if_neg hki, zip_getElem?]
    · have hA : A[j]? = none := List.getElem?_eq_none (by omega)
      have hB : B[j]? = none := List.getElem?_eq_none (by omega)
      have hZ : (A.zip B)[j]? = none := by
        rw [zip_getElem?, hA]; rfl
      rw [listSwap_oob_eq A i j (Or.inr hA), listSwap_oob_eq B i j (Or.inr hB),
        listSwap_oob_eq (A.zip B) i j (Or.inr hZ)]
  · have hA : A[i]? = none := List.getElem?_eq_none (by omega)
    have hB : B[i]? = none := List.getElem?_eq_none (by omega)
    have hZ : (A.zip B)[i]? = none := by
      rw [zip_getElem?, hA]; rfl
    rw [listSwap_oob_eq A i j (Or.inl hA), listSwap_oob_eq B i j (Or.inl hB),
      listSwap_oob_eq (A.zip B) i j (Or.inl hZ)]

/-! ### Advance and retreat loop invariants -/

theorem advanceF_spec {α : Type} (d : Nat) (sv : ℚ) (right : Int) :
    ∀ (fuel : Nat) (s : PState α) (left : Int),
      (right + 1 - left).toNat < fuel →
      left ≤ right + 1 →
      ∃ l s',
        advanceF fuel d sv right s left = some (l, s') ∧
        left ≤ l ∧ l ≤ right + 1 ∧
        s'.points_ = s.points_ ∧
        s'.point_infos_ = s.point_infos_ ∧
        s'.right_bound = s.right_bound ∧
        s'.left_bound.length = s.left_bound.length ∧
        (∀ j : Int, left ≤ j → j < l → vget (ptAt s j) d < sv) ∧
        (sv ≤ vget (ptAt s l) d ∨ right < l) ∧
        (∀ j : Int, left ≤ j → j < l → (s'.left_bound).containsB (ptAt s j)) ∧
        (∀ w : Vec, s.left_bound.containsB w → s'.left_bound.containsB w) := by
  intro fuel
  induction fuel with
  | zero => intro s left h1 h2; omega
  | succ n ih =>
      intro s left h1 h2
      simp only [advanceF]
      by_cases hstop : sv ≤ vget (ptAt s left) d ∨ right < left
      · rw [if_pos hstop]
        exact ⟨left, s, rfl, le_refl _, h2, rfl, rfl, rfl, rfl,
          fun j hj1 hj2 => ((by omega : False)).elim,
          hstop, fun j hj1 hj2 => ((by omega : False)).elim,
          fun w hw => hw⟩
      · rw [if_neg hstop]
        push_neg at hstop
        obtain ⟨hlt, hle⟩ := hstop
        have h1' : (right + 1 - (left + 1)).toNat < n := by omega
        obtain ⟨l, s', heq, hll, hlr, hp, hpi, hrb, hlen, hsmall, hstop', hcov, hmono⟩ :=
          ih { s with left_bound := s.left_bound.unionPt (ptAt s left) }
            (left + 1) h1' (by omega)
        refine ⟨l, s', heq, by omega, hlr, hp, hpi, hrb, ?_, ?_, hstop', ?_, ?_⟩
        · rw [hlen]; exact Bound.length_unionPt _ _
        · intro j hj1 hj2
          rcases eq_or_lt_of_le hj1 with hj | hj
          · rw [← hj]; exact hlt
          · exact hsmall j (by omega) hj2
        · intro j hj1 hj2
          rcases eq_or_lt_of_le hj1 with hj | hj
          · rw [← hj]
            exact hmono _ (Bound.containsB_unionPt_self _ _)
          · exact hcov j (by omega) hj2
        · intro w hw
          exact hmono w (Bound.containsB_unionPt_mono _ hw)

theorem retreatF_spec {α : Type} (d : Nat) (sv : ℚ) (left : Int) :
    ∀ (fuel : Nat) (s : PState α) (right : Int),
      (right + 1 - left).toNat < fuel →
      left - 1 ≤ right →
      ∃ r s',
        retreatF fuel d sv left s right = some (r, s') ∧
        r ≤ right ∧ left - 1 ≤ r ∧
        s'.points_ = s.points_ ∧
        s'.point_infos_ = s.point_infos_ ∧
        s'.left_bound = s.left_bound ∧
        s'.right_bound.length = s.right_bound.length ∧
        (∀ j : Int, r < j → j ≤ right → sv ≤ vget (ptAt s j) d) ∧
        (vget (ptAt s r) d < sv ∨ r < left) ∧
        (∀ j : Int, r < j → j ≤ right → (s'.right_bound).containsB (ptAt s j)) ∧
        (∀ w : Vec, s.right_bound.containsB w → s'.right_bound.containsB w) := by
  intro fuel
  induction fuel with
  | zero => intro s right h1 h2; omega
  | succ n ih =>
      intro s right h1 h2
      simp only [retreatF]
      by_cases hstop : vget (ptAt s right) d < sv ∨ right < left
      · rw [if_pos hstop]
        exact ⟨right, s, rfl, le_refl _, h2, rfl, rfl, rfl, rfl,
          fun j hj1 hj2 => ((by omega : False)).elim,
          hstop, fun j hj1 hj2 => ((by omega : False)).elim,
          fun w hw => hw⟩
      · rw [if_neg hstop]
        push_neg at hstop
        obtain ⟨hge, hle⟩ := hstop
        have h1' : (right - 1 + 1 - left).toNat < n := by omega
        obtain ⟨r, s', heq, hrr, hrl, hp, hpi, hlb, hlen, hbig, hstop', hcov, hmono⟩ :=
          ih { s with right_bound := s.right_bound.unionPt (ptAt s right) }
            (right - 1) h1' (by omega)
        refine ⟨r, s', heq, by omega, hrl, hp, hpi, hlb, ?_, ?_, hstop', ?_, ?_⟩
        · rw [hlen]; exact Bound.length_unionPt _ _
        · intro j hj1 hj2
          rcases eq_or_lt_of_le hj2 with hj | hj
          · rw [hj]; exact hge
          · exact hbig j hj1 (by omega)
        · intro j hj1 hj2
          rcases eq_or_lt_of_le hj2 with hj | hj
          · rw [hj]
            exact hmono _ (Bound.containsB_unionPt_self _ _)
          · exact hcov j hj1 (by omega)
        · intro w hw
          exact hmono w (Bound.containsB_unionPt_mono _ hw)

/-! ### swapStep characterization -/

theorem ptAt_congr2 {α : Type} {s t : PState α} {i j : Int}
    (h : s.points_[i.toNat]? = t.points_[j.toNat]?) : ptAt s i = ptAt t j := by
  unfold ptAt
  rw [List.getD_eq_getElem?_getD, List.getD_eq_getElem?_getD, h]

theorem ptAt_congr {α : Type} {s t : PState α} (j : Int)
    (h : s.points_[j.toNat]? = t.points_[j.toNat]?) : ptAt s j = ptAt t j :=
  ptAt_congr2 h

theorem ptAt_eq_of_points_eq {α : Type} {s t : PState α}
    (h : s.points_ = t.points_) (j : Int) : ptAt s j = ptAt t j := by
  unfold ptAt
  rw [h]

theorem swapStep_points {α : Type} (s2 : PState α) (l r : Int) :
    (swapStep s2 l r).points_ = listSwap s2.points_ l.toNat r.toNat :=
  rfl

theorem swapStep_infos {α : Type} (s2 : PState α) (l r : Int) :
    (swapStep s2 l r).point_infos_ = listSwap s2.point_infos_ l.toNat r.toNat :=
  rfl

theorem swapStep_lb {α : Type} (s2 : PState α) (l r : Int) :
    (swapStep s2 l r).left_bound =
      s2.left_bound.unionPt (ptAt (swapStep s2 l r) l) :=
  rfl

theorem swapStep_rb {α : Type} (s2 : PState α) (l r : Int) :
    (swapStep s2 l r).right_bound =
      s2.right_bound.unionPt (ptAt (swapStep s2 l r) r) :=
  rfl

theorem swapStep_ptAt_untouched {α : Type} (s2 : PState α) (l r j : Int)
    (h1 : j.toNat ≠ l.toNat) (h2 : j.toNat ≠ r.toNat) :
    ptAt (swapStep s2 l r) j = ptAt s2 j :=
  ptAt_congr j (listSwap_getElem?_of_ne _ _ _ _ h1 h2)

theorem swapStep_ptAt_left {α : Type} (s2 : PState α) (l r : Int)
    (hl : l.toNat < s2.points_.length) (hr : r.toNat < s2.points_.length)
    (hne : l.toNat ≠ r.toNat) :
    ptAt (swapStep s2 l r) l = ptAt s2 r := by
  apply ptAt_congr2
  rw [swapStep_points, listSwap_getElem?_full _ _ _ hl hr, if_neg hne, if_pos rfl]

theorem swapStep_ptAt_right {α : Type} (s2 : PState α) (l r : Int)
    (hl : l.toNat < s2.points_.length) (hr : r.toNat < s2.points_.length) :
    ptAt (swapStep s2 l r) r = ptAt s2 l := by
  apply ptAt_congr2
  rw [swapStep_points, listSwap_getElem?_full _ _ _ hl hr, if_pos rfl]

/-! ### Outer partition loop invariant -/

theorem ploopF_spec {α : Type} (d : Nat) (sv : ℚ) (first count : Nat) :
    ∀ (fuel : Nat) (innerFuel : Nat) (s : PState α) (left right : Int),
      (first : Int) ≤ left →
      left ≤ right + 1 →
      right < (first : Int) + count →
      (right + 1 - left).toNat < fuel →
      count + 1 ≤ innerFuel →
      s.point_infos_.length = s.points_.length →
      first + count ≤ s.points_.length →
      (∀ j : Int, (first : Int) ≤ j → j < left → vget (ptAt s j) d < sv) →
      (∀ j : Int, right < j → j < (first : Int) + count → sv ≤ vget (ptAt s j) d) →
      (∀ j : Int, (first : Int) ≤ j → j < left → s.left_bound.containsB (ptAt s j)) →
      (∀ j : Int, right < j → j < (first : Int) + count →
        s.right_bound.containsB (ptAt s j)) →
      ∃ l r s',
        ploopF fuel d sv innerFuel s left right = some (l, r, s') ∧
        r = l - 1 ∧
        (first : Int) ≤ l ∧ l ≤ (first : Int) + count ∧
        s'.points_.length = s.points_.length ∧
        s'.point_infos_.length = s.point_infos_.length ∧
        s'.left_bound.length = s.left_bound.length ∧
        s'.right_bound.length = s.right_bound.length ∧
        (∀ j : Int, (first : Int) ≤ j → j < l → vget (ptAt s' j) d < sv) ∧
        (∀ j : Int, r < j → j < (first : Int) + count → sv ≤ vget (ptAt s' j) d) ∧
        (∀ j : Int, (first : Int) ≤ j → j < l → s'.left_bound.containsB (ptAt s' j)) ∧
        (∀ j : Int, r < j → j < (first : Int) + count →
          s'.right_bound.containsB (ptAt s' j)) ∧
        List.Perm (s'.points_.zip s'.point_infos_) (s.points_.zip s.point_infos_) ∧
        List.Perm s'.points_ s.points_ ∧
        (∀ k : Nat, ((k : Int) < (first : Int) ∨ (first : Int) + count ≤ (k : Int)) →
          s'.points_[k]? = s.points_[k]? ∧ s'.point_infos_[k]? = s.point_infos_[k]?) := by
  intro fuel
  induction fuel with
  | zero =>
      intro innerFuel s left right hfl hlr hrc hfuel hinner hlen hbound hP2 hP3 hP4 hP5
      omega
  | succ n ih =>
      intro innerFuel s left right hfl hlr hrc hfuel hinner hlen hbound hP2 hP3 hP4 hP5
      have hIa : (right + 1 - left).toNat < innerFuel := by omega
      obtain ⟨l, s1, heqA, hAll, hAlr, hAp, hApi, hArb, hAlen, hAsmall, hAstop, hAcov, hAmono⟩ :=
        advanceF_spec d sv right innerFuel s left hIa hlr
      have hIr : (right + 1 - l).toNat < innerFuel := by omega
      obtain ⟨r, s2, heqR, hRrr, hRrl, hRp, hRpi, hRlb, hRlen, hRbig, hRstop, hRcov, hRmono⟩ :=
        retreatF_spec d sv l innerFuel s1 right hIr (by omega)
      have hp1 : s1.points_ = s.points_ := hAp
      have hpi1 : s1.point_infos_ = s.point_infos_ := hApi
      have hp2 : s2.points_ = s.points_ := by rw [hRp, hp1]
      have hpi2 : s2.point_infos_ = s.point_infos_ := by rw [hRpi, hpi1]
      have hpt1 : ∀ j : Int, ptAt s1 j = ptAt s j := ptAt_eq_of_points_eq hp1
      have hpt2 : ∀ j : Int, ptAt s2 j = ptAt s j := ptAt_eq_of_points_eq hp2
      by_cases hcross : r < l
      · have heq : ploopF (n + 1) d sv innerFuel s left right = some (l, r, s2) := by
          simp only [ploopF, heqA, heqR, if_pos hcross]
        refine ⟨l, r, s2, heq, by omega, by omega, by omega,
          ?_, ?_, ?_, ?_, ?_, ?_, ?_, ?_, ?_, ?_, ?_⟩
        · rw [hp2]
        · rw [hpi2]
        · rw [hRlb]; exact hAlen
        · rw [hRlen, hArb]
        · intro j hj1 hj2
          rw [hpt2]
          by_cases hj : j < left
          · exact hP2 j hj1 hj
          · exact hAsmall j (by omega) hj2
        · intro j hj1 hj2
          rw [hpt2]
          by_cases hj : j ≤ right
          · have hb := hRbig j hj1 hj
            rw [hpt1] at hb
            exact hb
          · exact hP3 j (by omega) hj2
        · intro j hj1 hj2
          rw [hpt2, hRlb]
          by_cases hj : j < left
          · exact hAmono _ (hP4 j hj1 hj)
          · exact hAcov j (by omega) hj2
        · intro j hj1 hj2
          rw [hpt2]
          by_cases hj : j ≤ right
          · have hb := hRcov j hj1 hj
            rw [hpt1] at hb
            exact hb
          · refine hRmono _ ?_
            rw [hArb]
            exact hP5 j (by omega) hj2
        · rw [hp2, hpi2]
        · rw [hp2]
        · intro k hk
          rw [hp2, hpi2]
          exact ⟨rfl, rfl⟩
      · push_neg at hcross
        have hcl : sv ≤ vget (ptAt s l) d := by
          rcases hAstop with h | h
          · exact h
          · omega
        have hcr : vget (ptAt s r) d < sv := by
          rcases hRstop with h | h
          · rw [hpt1] at h; exact h
          · omega
        have hlstrict : l < r := by
          rcases eq_or_lt_of_le hcross with h | h
          · exfalso; rw [h] at hcl; linarith
          · exact h
        have hlN : l.toNat < s2.points_.length := by rw [hp2]; omega
        have hrN : r.toNat < s2.points_.length := by rw [hp2]; omega
        have hlrN : l.toNat ≠ r.toNat := by omega
        set s4 := swapStep s2 l r with hs4
        have heqStep : ploopF (n + 1) d sv innerFuel s left right =
            ploopF n d sv innerFuel s4 l (r - 1) := by
          rw [hs4]
          simp only [ploopF, heqA, heqR, if_neg (not_lt.mpr hcross)]
        have h4p : s4.points_ = listSwap s2.points_ l.toNat r.toNat := rfl
        have h4pi : s4.point_infos_ = listSwap s2.point_infos_ l.toNat r.toNat := rfl
        have h4plen : s4.points_.length = s.points_.length := by
          rw [h4p, listSwap_length, hp2]
        have h4pilen : s4.point_infos_.length = s.point_infos_.length := by
          rw [h4pi, listSwap_length, hpi2]
        have h4len : s4.point_infos_.length = s4.points_.length := by
          rw [h4plen, h4pilen, hlen]
        have h4bound : first + count ≤ s4.points_.length := by
          rw [h4plen]; exact hbound
        have h4atR : ptAt s4 r = ptAt s l := by
          rw [hs4, swapStep_ptAt_right s2 l r hlN hrN, hpt2]
        have h4atO : ∀ j : Int, 0 ≤ j → j ≠ l → j ≠ r → ptAt s4 j = ptAt s j := by
          intro j hj0 hjl hjr
          rw [hs4, swapStep_ptAt_untouched s2 l r j (by omega) (by omega), hpt2]
        have h4lb : s4.left_bound = s2.left_bound.unionPt (ptAt s4 l) := by
          rw [hs4]; exact swapStep_lb s2 l r
        have h4rb : s4.right_bound = s2.right_bound.unionPt (ptAt s4 r) := by
          rw [hs4]; exact swapStep_rb s2 l r
        have ih2 : ∀ j : Int, (first : Int) ≤ j → j < l → vget (ptAt s4 j) d < sv := by
          intro j hj1 hj2
          rw [h4atO j (by omega) (by omega) (by omega)]
          by_cases hj : j < left
          · exact hP2 j hj1 hj
          · exact hAsmall j (by omega) hj2
        have ih3 : ∀ j : Int, r - 1 < j → j < (first : Int) + count →
            sv ≤ vget (ptAt s4 j) d := by
          intro j hj1 hj2
          by_cases hjr : j = r
          · rw [hjr, h4atR]; exact hcl
          · rw [h4atO j (by omega) (by omega) hjr]
            by_cases hj : j ≤ right
            · have hb := hRbig j (by omega) hj
              rw [hpt1] at hb
              exact hb
            · exact hP3 j (by omega) hj2
        have ih4 : ∀ j : Int, (first : Int) ≤ j → j < l →
            s4.left_bound.containsB (ptAt s4 j) := by
          intro j hj1 hj2
          rw [h4lb]
          apply Bound.containsB_unionPt_mono
          rw [h4atO j (by omega) (by omega) (by omega), hRlb]
          by_cases hj : j < left
          · exact hAmono _ (hP4 j hj1 hj)
          · exact hAcov j (by omega) hj2
        have ih5 : ∀ j : Int, r - 1 < j → j < (first : Int) + count →
            s4.right_bound.containsB (ptAt s4 j) := by
          intro j hj1 hj2
          rw [h4rb]
          by_cases hjr : j = r
          · rw [hjr]; exact Bound.containsB_unionPt_self _ _
          · apply Bound.containsB_unionPt_mono
            rw [h4atO j (by omega) (by omega) hjr]
            by_cases hj : j ≤ right
            · have hb := hRcov j (by omega) hj
              rw [hpt1] at hb
              exact hb
            · refine hRmono _ ?_
              rw [hArb]
              exact hP5 j (by omega) hj2
        obtain ⟨l', r', s', heqI, hcrossI, hIl1, hIl2, hIplen, hIpilen, hIlblen, hIrblen,
            hIP2, hIP3, hIP4, hIP5, hIzip, hIpts, hIout⟩ :=
          ih innerFuel s4 l (r - 1) (by omega) (by omega) (by omega) (by omega)
            hinner h4len h4bound ih2 ih3 ih4 ih5
        have hlen2 : s2.points_.length = s2.point_infos_.length := by
          rw [hp2, hpi2, hlen]
        have h4zip : s4.points_.zip s4.point_infos_ =
            listSwap (s2.points_.zip s2.point_infos_) l.toNat r.toNat := by
          rw [h4p, h4pi]
          exact zip_listSwap _ _ hlen2 _ _
        refine ⟨l', r', s', ?_, hcrossI, hIl1, hIl2, ?_, ?_, ?_, ?_,
          hIP2, hIP3, hIP4, hIP5, ?_, ?_, ?_⟩
        · rw [heqStep]; exact heqI
        · rw [hIplen, h4plen]
        · rw [hIpilen, h4pilen]
        · rw [hIlblen, h4lb, Bound.length_unionPt, hRlb, hAlen]
        · rw [hIrblen, h4rb, Bound.length_unionPt, hRlen, hArb]
        · refine hIzip.trans ?_
          rw [h4zip, hp2, hpi2]
          exact listSwap_perm _ _ _
        · refine hIpts.trans ?_
          rw [h4p, hp2]
          exact listSwap_perm _ _ _
        · intro k hk
          obtain ⟨hk1, hk2⟩ := hIout k hk
          constructor
          · rw [hk1, h4p, listSwap_getElem?_of_ne _ _ _ _ (by omega) (by omega), hp2]
          · rw [hk2, h4pi, listSwap_getElem?_of_ne _ _ _ _ (by omega) (by omega), hpi2]

/-! ### Partition_ top-level specification -/

theorem Partition_spec {α : Type} (d : Nat) (sv : ℚ) (first count : Nat)
    (s : PState α) (hc : 1 ≤ count)
    (hlen : s.point_infos_.length = s.points_.length)
    (hbound : first + count ≤ s.points_.length) :
    ∃ l r s',
      Partition_ d sv first count s = some (l, r, s') ∧
      r = l - 1 ∧
      (first : Int) ≤ l ∧ l ≤ (first : Int) + count ∧
      s'.points_.length = s.points_.length ∧
      s'.point_infos_.length = s.point_infos_.length ∧
      s'.left_bound.length = s.left_bound.length ∧
      s'.right_bound.length = s.right_bound.length ∧
      (∀ j : Int, (first : Int) ≤ j → j < l → vget (ptAt s' j) d < sv) ∧
      (∀ j : Int, l ≤ j → j < (first : Int) + count → sv ≤ vget (ptAt s' j) d) ∧
      (∀ j : Int, (first : Int) ≤ j → j < l → s'.left_bound.containsB (ptAt s' j)) ∧
      (∀ j : Int, l ≤ j → j < (first : Int) + count →
        s'.right_bound.containsB (ptAt s' j)) ∧
      List.Perm (s'.points_.zip s'.point_infos_) (s.points_.zip s.point_infos_) ∧
      List.Perm s'.points_ s.points_ ∧
      (∀ k : Nat, ((k : Int) < (first : Int) ∨ (first : Int) + count ≤ (k : Int)) →
        s'.points_[k]? = s.points_[k]? ∧ s'.point_infos_[k]? = s.point_infos_[k]?) := by
  obtain ⟨l, r, s', heq, hcross, hl1, hl2, c1, c2, c3, c4, cP2, cP3, cP4, cP5, cz, cp, co⟩ :=
    ploopF_spec d sv first count (count + 1) (count + 2) s (first : Int)
      ((first : Int) + (count : Int) - 1)
      (by omega) (by omega) (by omega) (by omega) (by omega) hlen hbound
      (fun j hj1 hj2 => ((by omega : False)).elim)
      (fun j hj1 hj2 => ((by omega : False)).elim)
      (fun j hj1 hj2 => ((by omega : False)).elim)
      (fun j hj1 hj2 => ((by omega : False)).elim)
  exact ⟨l, r, s', heq, hcross, hl1, hl2, c1, c2, c3, c4, cP2,
    fun j hj1 hj2 => cP3 j (by omega) hj2, cP4,
    fun j hj1 hj2 => cP5 j (by omega) hj2, cz, cp, co⟩

/-- Restriction of a permutation to a middle segment: if two lists are
permutations of each other and agree pointwise outside `[f, f+c)`, the
segments `[f, f+c)` are permutations of each other. -/
theorem middle_perm {β : Type} (L1 L2 : List β) (f c : Nat)
    (hperm : List.Perm L1 L2)
    (hpre : ∀ k : Nat, k < f → L1[k]? = L2[k]?)
    (hsuf : ∀ k : Nat, f + c ≤ k → L1[k]? = L2[k]?) :
    List.Perm ((L1.drop f).take c) ((L2.drop f).take c) := by
  have htake : L1.take f = L2.take f := by
    apply List.ext_getElem?
    intro k
    rw [List.getElem?_take, List.getElem?_take]
    by_cases hk : k < f
    · rw [if_pos hk, if_pos hk]; exact hpre k hk
    · rw [if_neg hk, if_neg hk]
  have hdropfc : L1.drop (f + c) = L2.drop (f + c) := by
    apply List.ext_getElem?
    intro k
    rw [List.getElem?_drop, List.getElem?_drop]
    exact hsuf (f + c + k) (by omega)
  have hdec : ∀ L : List β,
      L = L.take f ++ ((L.drop f).take c ++ L.drop (f + c)) := by
    intro L
    have e1 : (L.drop f).take c ++ (L.drop f).drop c = L.drop f :=
      List.take_append_drop c (L.drop f)
    have e2 : (L.drop f).drop c = L.drop (f + c) := by
      rw [List.drop_drop, Nat.add_comm]
    calc L = L.take f ++ L.drop f := (List.take_append_drop f L).symm
      _ = L.take f ++ ((L.drop f).take c ++ L.drop (f + c)) := by rw [← e2, e1]
  have hperm' := hperm
  rw [hdec L1, hdec L2, htake, hdropfc, List.perm_append_left_iff,
    List.perm_append_right_iff] at hperm'
  exact hperm'

/-- Claim C3: for every valid input (`count ≥ 1`, payload array parallel to
the point array, index range inside the array), the two-pointer scan of
`KdTreeMidpointBuilder::Partition_` terminates: with its fuel it returns
`some`, the final cursors have crossed by exactly one (`left = right + 1`,
the source's `DEBUG_ASSERT`), and the returned crossing index lies in
`[first, first + count]`. -/
theorem Partition_terminates {α : Type} (d : Nat) (sv : ℚ) (first count : Nat)
    (s : PState α) (hc : 1 ≤ count)
    (hlen : s.point_infos_.length = s.points_.length)
    (hbound : first + count ≤ s.points_.length) :
    ∃ l r s', Partition_ d sv first count s = some (l, r, s') ∧
      l = r + 1 ∧ (first : Int) ≤ l ∧ l ≤ (first : Int) + count := by
  obtain ⟨l, r, s', heq, hcross, hl1, hl2, _⟩ :=
    Partition_spec d sv first count s hc hlen hbound
  exact ⟨l, r, s', heq, by omega, hl1, hl2⟩

/-- Witness for C3: partitioning the two 1-dimensional points `0` and `1`
at split value `1/2` returns with crossed cursors. -/
theorem Partition_terminates_witness :
    ∃ l r s', Partition_ 0 (1/2 : ℚ) 0 2
        (⟨[[0], [1]], [0, 1], Bound.initB 1, Bound.initB 1⟩ : PState Nat) =
        some (l, r, s') ∧
      l = r + 1 ∧ ((0 : Nat) : Int) ≤ l ∧ l ≤ ((0 : Nat) : Int) + (2 : Nat) :=
  Partition_terminates 0 (1/2 : ℚ) 0 2 _ (by decide) (by decide) (by decide)

/-- Claim C4: `Partition_` returns an index `i` with
`first ≤ i ≤ first + count` such that afterwards every point at an index in
`[first, i)` has `coordinate[split_dim] < splitvalue`, every point at an
index in `[i, first + count)` has `coordinate[split_dim] ≥ splitvalue`, the
(point, payload) pairs of the range are a permutation of the originals with
each payload still attached to its own point, and indices outside the range
are untouched. -/
theorem Partition_correct {α : Type} (d : Nat) (sv : ℚ) (first count : Nat)
    (s : PState α) (hc : 1 ≤ count)
    (hlen : s.point_infos_.length = s.points_.length)
    (hbound : first + count ≤ s.points_.length) :
    ∃ l r s', Partition_ d sv first count s = some (l, r, s') ∧
      (first : Int) ≤ l ∧ l ≤ (first : Int) + count ∧
      (∀ j : Int, (first : Int) ≤ j → j < l → vget (ptAt s' j) d < sv) ∧
      (∀ j : Int, l ≤ j → j < (first : Int) + count → sv ≤ vget (ptAt s' j) d) ∧
      List.Perm (((s'.points_.zip s'.point_infos_).drop first).take count)
        (((s.points_.zip s.point_infos_).drop first).take count) ∧
      (∀ k : Nat, ((k : Int) < (first : Int) ∨ (first : Int) + count ≤ (k : Int)) →
        s'.points_[k]? = s.points_[k]? ∧ s'.point_infos_[k]? = s.point_infos_[k]?) := by
  obtain ⟨l, r, s', heq, hcross, hl1, hl2, c1, c2, c3, c4, cP2, cP3, cP4, cP5, cz, cp, co⟩ :=
    Partition_spec d sv first count s hc hlen hbound
  refine ⟨l, r, s', heq, hl1, hl2, cP2, cP3, ?_, co⟩
  apply middle_perm _ _ first count cz
  · intro k hk
    obtain ⟨h1, h2⟩ := co k (Or.inl (by exact_mod_cast hk))
    rw [zip_getElem?, zip_getElem?, h1, h2]
  · intro k hk
    obtain ⟨h1, h2⟩ := co k (Or.inr (by exact_mod_cast hk))
    rw [zip_getElem?, zip_getElem?, h1, h2]

/-- Witness for C4: the same two-point partition, applying the theorem at a
concrete input. -/
theorem Partition_correct_witness :
    ∃ l r s', Partition_ 0 (1/2 : ℚ) 0 2
        (⟨[[0], [1]], [0, 1], Bound.initB 1, Bound.initB 1⟩ : PState Nat) =
        some (l, r, s') ∧
      ((0 : Nat) : Int) ≤ l ∧ l ≤ ((0 : Nat) : Int) + (2 : Nat) ∧
      (∀ j : Int, ((0 : Nat) : Int) ≤ j → j < l → vget (ptAt s' j) 0 < (1/2 : ℚ)) ∧
      (∀ j : Int, l ≤ j → j < ((0 : Nat) : Int) + (2 : Nat) →
        (1/2 : ℚ) ≤ vget (ptAt s' j) 0) ∧
      List.Perm (((s'.points_.zip s'.point_infos_).drop 0).take 2)
        ((((⟨[[0], [1]], [0, 1], Bound.initB 1, Bound.initB 1⟩ :
          PState Nat).points_.zip
          (⟨[[0], [1]], [0, 1], Bound.initB 1, Bound.initB 1⟩ :
            PState Nat).point_infos_).drop 0).take 2) ∧
      (∀ k : Nat, ((k : Int) < ((0 : Nat) : Int) ∨
          ((0 : Nat) : Int) + (2 : Nat) ≤ (k : Int)) →
        s'.points_[k]? = ([[0], [1]] : List Vec)[k]? ∧
        s'.point_infos_[k]? = ([0, 1] : List Nat)[k]?) :=
  Partition_correct 0 (1/2 : ℚ) 0 2 _ (by decide) (by decide) (by decide)

theorem slice_getElem?_eq {β : Type} (L : List β) (f c k : Nat) (hk : k < c) :
    ((L.drop f).take c)[k]? = L[f + k]? := by
  rw [List.getElem?_take, if_pos hk, List.getElem?_drop]

/-- Claim C9: when the chosen dimension's width is strictly positive
(`lo < hi`, both endpoints attained by points of the range — the tight-bound
invariant the builder maintains) and the split value is that dimension's
midpoint, `Partition_` produces two non-empty sides: the crossing index is
strictly inside `(first, first + count)`, so the assertion
`left->count() != 0 && right->count() != 0` in `Build_` cannot fail. -/
theorem Partition_nonempty_sides {α : Type} (d : Nat) (lo hi : ℚ)
    (first count : Nat) (s : PState α) (jlo jhi : Nat)
    (hlen : s.point_infos_.length = s.points_.length)
    (hbound : first + count ≤ s.points_.length)
    (hlohi : lo < hi)
    (hjlo1 : first ≤ jlo) (hjlo2 : jlo < first + count)
    (hjhi1 : first ≤ jhi) (hjhi2 : jhi < first + count)
    (hlo : vget (s.points_.getD jlo []) d = lo)
    (hhi : vget (s.points_.getD jhi []) d = hi) :
    ∃ l r s',
      Partition_ d (DRange.mid (some (lo, hi))) first count s = some (l, r, s') ∧
      (first : Int) < l ∧ l < (first : Int) + count := by
  have hc : 1 ≤ count := by omega
  set sv := DRange.mid (some (lo, hi)) with hsv
  have hsv' : sv = (lo + hi) / 2 := rfl
  have hlosv : lo < sv := by rw [hsv']; linarith
  have hsvhi : sv < hi := by rw [hsv']; linarith
  obtain ⟨l, r, s', heq, hcross, hl1, hl2, c1, c2, c3, c4, cP2, cP3, cP4, cP5, cz, cp, co⟩ :=
    Partition_spec d sv first count s hc hlen hbound
  have hpre : ∀ k : Nat, k < first → s'.points_[k]? = s.points_[k]? :=
    fun k hk => (co k (Or.inl (by exact_mod_cast hk))).1
  have hsuf : ∀ k : Nat, first + count ≤ k → s'.points_[k]? = s.points_[k]? :=
    fun k hk => (co k (Or.inr (by exact_mod_cast hk))).1
  have hptsperm := middle_perm s'.points_ s.points_ first count cp hpre hsuf
  have hfind : ∀ q : Nat, first ≤ q → q < first + count →
      ∃ k : Nat, k < count ∧
        ptAt s' ((first + k : Nat) : Int) = s.points_.getD q [] := by
    intro q hq1 hq2
    have hqL : q < s.points_.length := by omega
    have hval : s.points_[q]? = some (s.points_.getD q []) := by
      rw [List.getElem?_eq_getElem hqL, List.getD_eq_getElem?_getD,
        List.getElem?_eq_getElem hqL]
      rfl
    have hmem2 : s.points_.getD q [] ∈ (s.points_.drop first).take count := by
      apply List.mem_iff_getElem?.mpr
      refine ⟨q - first, ?_⟩
      rw [slice_getElem?_eq s.points_ first count (q - first) (by omega)]
      rw [show first + (q - first) = q by omega]
      exact hval
    have hmem1 : s.points_.getD q [] ∈ (s'.points_.drop first).take count :=
      (hptsperm.mem_iff).mpr hmem2
    obtain ⟨k, hk⟩ := List.mem_iff_getElem?.mp hmem1
    have hkc : k < count := by
      obtain ⟨hlt, _⟩ := List.getElem?_eq_some.mp hk
      have := hlt
      simp only [List.length_take] at this
      omega
    refine ⟨k, hkc, ?_⟩
    have hglob : s'.points_[first + k]? = some (s.points_.getD q []) := by
      rw [← slice_getElem?_eq s'.points_ first count k hkc]
      exact hk
    unfold ptAt
    rw [show (((first + k : Nat) : Int)).toNat = first + k by omega,
      List.getD_eq_getElem?_getD, hglob]
    rfl
  obtain ⟨kl, hklc, hklat⟩ := hfind jlo hjlo1 hjlo2
  obtain ⟨kh, hkhc, hkhat⟩ := hfind jhi hjhi1 hjhi2
  refine ⟨l, r, s', heq, ?_, ?_⟩
  · by_contra hle
    push_neg at hle
    have hb := cP3 ((first + kl : Nat) : Int) (by omega) (by omega)
    rw [hklat, hlo] at hb
    linarith
  · by_contra hge
    push_neg at hge
    have hb := cP2 ((first + kh : Nat) : Int) (by omega) (by omega)
    rw [hkhat, hhi] at hb
    linarith

/-- Witness for C9: two 1-dimensional points `0` and `1`, width 1, midpoint
split — both sides end up non-empty. -/
theorem Partition_nonempty_sides_witness :
    ∃ l r s',
      Partition_ 0 (DRange.mid (some (0, 1))) 0 2
        (⟨[[0], [1]], [0, 1], Bound.initB 1, Bound.initB 1⟩ : PState Nat) =
        some (l, r, s') ∧
      ((0 : Nat) : Int) < l ∧ l < ((0 : Nat) : Int) + (2 : Nat) :=
  Partition_nonempty_sides 0 0 1 0 2 _ 0 1 (by decide) (by decide) (by decide)
    (by decide) (by decide) (by decide) (by decide) (by decide) (by decide)

/-! ### Tree-level helper lemmas -/

theorem getElem?_getD_self {β : Type} (L : List β) (q : Nat) (hq : q < L.length)
    (dflt : β) : L[q]? = some (L.getD q dflt) := by
  rw [List.getElem?_eq_getElem hq, List.getD_eq_getElem?_getD,
    List.getElem?_eq_getElem hq]
  rfl

theorem getD_congr {β : Type} {L1 L2 : List β} {k : Nat}
    (h : L1[k]? = L2[k]?) (dflt : β) : L1.getD k dflt = L2.getD k dflt := by
  rw [List.getD_eq_getElem?_getD, List.getD_eq_getElem?_getD, h]

theorem ptAt_natCast {α : Type} (s : PState α) (q : Nat) :
    ptAt s ((q : Nat) : Int) = s.points_.getD q [] := by
  unfold ptAt
  rw [show ((q : Nat) : Int).toNat = q by omega]

theorem mem_slice {β : Type} (L : List β) (f c q : Nat) (x : β)
    (hq1 : f ≤ q) (hq2 : q < f + c) (h : L[q]? = some x) :
    x ∈ (L.drop f).take c := by
  apply List.mem_iff_getElem?.mpr
  refine ⟨q - f, ?_⟩
  rw [slice_getElem?_eq L f c _ (by omega), show f + (q - f) = q by omega]
  exact h

theorem slice_mem_index {β : Type} (L : List β) (f c : Nat) (x : β)
    (hmem : x ∈ (L.drop f).take c) :
    ∃ q, f ≤ q ∧ q < f + c ∧ L[q]? = some x := by
  obtain ⟨k, hk⟩ := List.mem_iff_getElem?.mp hmem
  have hkc : k < c := by
    obtain ⟨hlt, _⟩ := List.getElem?_eq_some.mp hk
    simp only [List.length_take] at hlt
    omega
  refine ⟨f + k, by omega, by omega, ?_⟩
  rw [← slice_getElem?_eq L f c k hkc]
  exact hk

/-- Transfer of per-range bound containment across a permutation that fixes
everything outside the range. -/
theorem contains_range_perm (bound : Bound) (ptsA ptsB : List Vec) (f c : Nat)
    (hperm : List.Perm ptsA ptsB)
    (hpre : ∀ k : Nat, k < f → ptsA[k]? = ptsB[k]?)
    (hsuf : ∀ k : Nat, f + c ≤ k → ptsA[k]? = ptsB[k]?)
    (hlenA : f + c ≤ ptsA.length)
    (hcont : ∀ j : Nat, f ≤ j → j < f + c → bound.containsB (ptsB.getD j [])) :
    ∀ j : Nat, f ≤ j → j < f + c → bound.containsB (ptsA.getD j []) := by
  intro j hj1 hj2
  have hjA : j < ptsA.length := by omega
  have hmemA : ptsA.getD j [] ∈ (ptsA.drop f).take c :=
    mem_slice ptsA f c j _ hj1 hj2 (getElem?_getD_self ptsA j hjA [])
  have hsliceperm := middle_perm ptsA ptsB f c hperm hpre hsuf
  have hmemB := (hsliceperm.mem_iff).mp hmemA
  obtain ⟨q, hq1, hq2, hq⟩ := slice_mem_index ptsB f c _ hmemB
  have hqe : ptsB.getD q [] = ptsA.getD j [] := by
    rw [List.getD_eq_getElem?_getD, hq]
    rfl
  rw [← hqe]
  exact hcont q hq1 hq2

theorem KdNode.within_mono {lo hi lo' hi' : Nat} (h1 : lo' ≤ lo) (h2 : hi ≤ hi') :
    ∀ t : KdNode, t.within lo hi → t.within lo' hi'
  | .leaf b c bd, hw => ⟨by have := hw.1; omega, by have := hw.2; omega⟩
  | .node b c bd lt rt, hw =>
      ⟨by have := hw.1; omega, by have := hw.2.1; omega,
        within_mono h1 h2 lt hw.2.2.1, within_mono h1 h2 rt hw.2.2.2⟩

theorem TreeContains_congr (ptsA ptsB : List Vec) (lo hi : Nat)
    (heq : ∀ j : Nat, lo ≤ j → j < hi → ptsA.getD j [] = ptsB.getD j []) :
    ∀ t : KdNode, t.within lo hi → TreeContains ptsB t → TreeContains ptsA t
  | .leaf b c bd, hw, hc => by
      intro j hj1 hj2
      rw [heq j (by have := hw.1; omega) (by have := hw.2; omega)]
      exact hc j hj1 hj2
  | .node b c bd lt rt, hw, hc => by
      refine ⟨?_, ?_, ?_⟩
      · intro j hj1 hj2
        rw [heq j (by have := hw.1; omega) (by have := hw.2.1; omega)]
        exact hc.1 j hj1 hj2
      · exact TreeContains_congr ptsA ptsB lo hi heq lt hw.2.2.1 hc.2.1
      · exact TreeContains_congr ptsA ptsB lo hi heq rt hw.2.2.2 hc.2.2

theorem leafSum_eq_count : ∀ t : KdNode, t.childrenOK → t.leafSum = t.ncount
  | .leaf b c bd, _ => rfl
  | .node b c bd lt rt, h => by
      show lt.leafSum + rt.leafSum = c
      rw [leafSum_eq_count lt h.2.2.2.1, leafSum_eq_count rt h.2.2.2.2,
        h.2.2.1]

/-! ### Build_ specification -/

theorem buildF_spec {α : Type} (leaf_size dim : Nat) :
    ∀ (fuel : Nat) (pts : List Vec) (infos : List α) (begin_ count : Nat)
      (bound : Bound) (tree : KdNode) (pts2 : List Vec) (infos2 : List α),
      buildF fuel leaf_size dim pts infos begin_ count bound =
        some (tree, pts2, infos2) →
      infos.length = pts.length →
      begin_ + count ≤ pts.length →
      tree.nbegin = begin_ ∧ tree.ncount = count ∧ tree.nbound = bound ∧
      pts2.length = pts.length ∧ infos2.length = infos.length ∧
      (∀ k : Nat, (k < begin_ ∨ begin_ + count ≤ k) →
        pts2[k]? = pts[k]? ∧ infos2[k]? = infos[k]?) ∧
      List.Perm (pts2.zip infos2) (pts.zip infos) ∧
      List.Perm pts2 pts ∧
      tree.within begin_ (begin_ + count) ∧
      tree.childrenOK ∧
      ((∀ j : Nat, begin_ ≤ j → j < begin_ + count →
          bound.containsB (pts.getD j [])) →
        TreeContains pts2 tree) := by
  intro fuel
  induction fuel with
  | zero =>
      intro pts infos begin_ count bound tree pts2 infos2 heq hlen hrange
      exact Option.noConfusion heq
  | succ n ih =>
      intro pts infos begin_ count bound tree pts2 infos2 heq hlen hrange
      simp only [buildF] at heq
      by_cases hls : leaf_size < count
      · rw [if_pos hls] at heq
        by_cases hw : (widestDim bound dim).2 ≠ 0
        · rw [if_pos hw] at heq
          split at heq
          · exact Option.noConfusion heq
          · next sc rr sP heqP =>
              split at heq
              · exact Option.noConfusion heq
              · next lt pts1 infos1 heqL =>
                  split at heq
                  · exact Option.noConfusion heq
                  · next rt ptsR infosR heqR =>
                      simp only [Option.some.injEq, Prod.mk.injEq] at heq
                      obtain ⟨h1, h2, h3⟩ := heq
                      subst h1
                      subst h2
                      subst h3
                      obtain ⟨l, r, sP', heqP', hcross, hl1, hl2, c1, c2, c3, c4,
                          cP2, cP3, cP4, cP5, cz, cp, co⟩ :=
                        Partition_spec (widestDim bound dim).1
                          ((bound.getD (widestDim bound dim).1 none).mid)
                          begin_ count
                          ⟨pts, infos, Bound.initB dim, Bound.initB dim⟩
                          (by omega) hlen hrange
                      rw [heqP] at heqP'
                      simp only [Option.some.injEq, Prod.mk.injEq] at heqP'
                      obtain ⟨e1, e2, e3⟩ := heqP'
                      subst e1
                      subst e2
                      subst e3
                      have hc1' : sP.points_.length = pts.length := c1
                      have hc2' : sP.point_infos_.length = infos.length := c2
                      have hb1 : begin_ ≤ sc.toNat := by omega
                      have hb2 : sc.toNat ≤ begin_ + count := by omega
                      have hlenP : sP.point_infos_.length = sP.points_.length := by
                        rw [hc1', hc2', hlen]
                      obtain ⟨L1, L2, L3, L4, L5, L6, L7, L8, L9, L10, L11⟩ :=
                        ih sP.points_ sP.point_infos_ begin_
                          (sc.toNat - begin_) sP.left_bound lt pts1 infos1
                          heqL hlenP (by omega)
                      have hc4' : pts1.length = pts.length := by rw [L4, hc1']
                      have hinfos1 : infos1.length = pts1.length := by
                        rw [L5, hc2', hlen, ← hc1', ← L4]
                      obtain ⟨R1, R2, R3, R4, R5, R6, R7, R8, R9, R10, R11⟩ :=
                        ih pts1 infos1 sc.toNat (begin_ + count - sc.toNat)
                          sP.right_bound rt ptsR infosR heqR hinfos1 (by omega)
                      have u4 : ptsR.length = pts.length := by rw [R4, hc4']
                      have u5 : infosR.length = infos.length := by
                        rw [R5, L5, hc2']
                      have u6 : ∀ k : Nat, (k < begin_ ∨ begin_ + count ≤ k) →
                          ptsR[k]? = pts[k]? ∧ infosR[k]? = infos[k]? := by
                        intro k hk
                        have hkR := R6 k (by omega)
                        have hkL := L6 k (by omega)
                        have hkO := co k (by omega)
                        constructor
                        · rw [hkR.1, hkL.1, hkO.1]
                        · rw [hkR.2, hkL.2, hkO.2]
                      have u7 : List.Perm (ptsR.zip infosR) (pts.zip infos) :=
                        R7.trans (L7.trans cz)
                      have u8 : List.Perm ptsR pts := R8.trans (L8.trans cp)
                      refine ⟨rfl, rfl, rfl, u4, u5, u6, u7, u8, ?_, ?_, ?_⟩
                      · refine ⟨le_refl _, le_refl _, ?_, ?_⟩
                        · exact KdNode.within_mono (le_refl _) (by omega) lt L9
                        · exact KdNode.within_mono (by omega) (by omega) rt R9
                      · refine ⟨L1, ?_, ?_, L10, R10⟩
                        · rw [R1, L2]; omega
                        · rw [L2, R2]; omega
                      · intro hcont
                        have hcontR : ∀ j : Nat, begin_ ≤ j →
                            j < begin_ + count →
                            bound.containsB (ptsR.getD j []) := by
                          apply contains_range_perm bound ptsR pts begin_ count u8
                          · intro k hk; exact (u6 k (Or.inl hk)).1
                          · intro k hk; exact (u6 k (Or.inr hk)).1
                          · omega
                          · exact hcont
                        have hLwithin : lt.within begin_ sc.toNat := by
                          have hx := L9
                          rwa [show begin_ + (sc.toNat - begin_) = sc.toNat
                            by omega] at hx
                        have hcontL : ∀ j : Nat, begin_ ≤ j →
                            j < begin_ + (sc.toNat - begin_) →
                            sP.left_bound.containsB (sP.points_.getD j []) := by
                          intro j hj1 hj2
                          have hx := cP4 ((j : Nat) : Int) (by omega) (by omega)
                          rwa [ptAt_natCast] at hx
                        have hTL1 : TreeContains pts1 lt := L11 hcontL
                        have hLpointwise : ∀ j : Nat, begin_ ≤ j →
                            j < sc.toNat → ptsR.getD j [] = pts1.getD j [] := by
                          intro j hj1 hj2
                          exact getD_congr (R6 j (Or.inl hj2)).1 []
                        have hTL : TreeContains ptsR lt :=
                          TreeContains_congr ptsR pts1 begin_ sc.toNat
                            hLpointwise lt hLwithin hTL1
                        have hcontRt : ∀ j : Nat, sc.toNat ≤ j →
                            j < sc.toNat + (begin_ + count - sc.toNat) →
                            sP.right_bound.containsB (pts1.getD j []) := by
                          intro j hj1 hj2
                          have hpe : pts1.getD j [] = sP.points_.getD j [] :=
                            getD_congr (L6 j (Or.inr (by omega))).1 []
                          rw [hpe]
                          have hx := cP5 ((j : Nat) : Int) (by omega) (by omega)
                          rwa [ptAt_natCast] at hx
                        have hTR : TreeContains ptsR rt := R11 hcontRt
                        exact ⟨hcontR, hTL, hTR⟩
        · rw [if_neg hw] at heq
          simp only [Option.some.injEq, Prod.mk.injEq] at heq
          obtain ⟨h1, h2, h3⟩ := heq
          subst h1
          subst h2
          subst h3
          exact ⟨rfl, rfl, rfl, rfl, rfl, fun k hk => ⟨rfl, rfl⟩,
            List.Perm.refl _, List.Perm.refl _, ⟨le_refl _, le_refl _⟩,
            trivial, fun hcont => hcont⟩
      · rw [if_neg hls] at heq
        simp only [Option.some.injEq, Prod.mk.injEq] at heq
        obtain ⟨h1, h2, h3⟩ := heq
        subst h1
        subst h2
        subst h3
        exact ⟨rfl, rfl, rfl, rfl, rfl, fun k hk => ⟨rfl, rfl⟩,
          List.Perm.refl _, List.Perm.refl _, ⟨le_refl _, le_refl _⟩,
          trivial, fun hcont => hcont⟩

/-! ### Degenerate (zero-width) build lemmas -/

theorem DRange.widen_idem (r : DRange) (x : ℚ) :
    (r.widen x).widen x = r.widen x := by
  cases r with
  | none => simp [DRange.widen, min_self, max_self]
  | some p =>
      obtain ⟨lo, hi⟩ := p
      simp [DRange.widen, min_assoc, min_self, max_assoc, max_self]

theorem Bound.getElem?_unionPt (b : Bound) (v : Vec) (k : Nat) :
    (b.unionPt v)[k]? =
      if k < b.length then some ((b.getD k none).widen (vget v k)) else none := by
  unfold Bound.unionPt
  rw [List.getElem?_map]
  by_cases hk : k < b.length
  · rw [List.getElem?_range hk, if_pos hk]
    rfl
  · rw [if_neg hk, List.getElem?_eq_none (by rw [List.length_range]; omega)]
    rfl

theorem Bound.unionPt_idem (b : Bound) (v : Vec) :
    (b.unionPt v).unionPt v = b.unionPt v := by
  apply List.ext_getElem?
  intro k
  rw [Bound.getElem?_unionPt, Bound.getElem?_unionPt, Bound.length_unionPt]
  by_cases hk : k < b.length
  · rw [if_pos hk, if_pos hk, Bound.getD_unionPt b v hk, DRange.widen_idem]
  · rw [if_neg hk, if_neg hk]

theorem fbb_replicate (N : Nat) (p : Vec) (b : Bound) :
    ∀ c : Nat, 1 ≤ c → c ≤ N →
      FindBoundingBox_ (List.replicate N p) 0 c b = b.unionPt p := by
  intro c
  induction c with
  | zero => intro h1 h2; omega
  | succ m ih =>
      intro h1 h2
      rw [FindBoundingBox_succ]
      have hget : (List.replicate N p).getD (0 + m) [] = p := by
        rw [List.getD_eq_getElem?_getD, List.getElem?_replicate, if_pos (by omega)]
        rfl
      rw [hget]
      rcases Nat.eq_zero_or_pos m with hm | hm
      · subst hm
        rfl
      · rw [ih (by omega) (by omega), Bound.unionPt_idem]

/-- Claim C5: a node whose points all coincide has a bound of zero width in
every dimension, so `Build_` makes it a leaf and does not recurse: a dataset
of `N` identical points yields a single-leaf tree of depth 0 regardless of
the leaf-size threshold, with the point and payload arrays untouched, and
the build terminates. -/
theorem InitBuild_identical_points {α : Type} (N dim leaf_size : Nat)
    (p : Vec) (infos : List α) (hN : 1 ≤ N) (hdim : 1 ≤ dim) :
    InitBuild leaf_size dim (List.replicate N p) infos =
      some (KdNode.leaf 0 N ((Bound.initB dim).unionPt p),
        List.replicate N p, infos) := by
  unfold InitBuild
  rw [List.length_replicate, fbb_replicate N p (Bound.initB dim) N hN (le_refl N)]
  have hwz : widestDim ((Bound.initB dim).unionPt p) dim = (0, 0) := by
    apply widestDim_allzero _ dim hdim
    intro d hd
    have hd' : d < (Bound.initB dim).length := by
      unfold Bound.initB
      rw [List.length_replicate]
      exact hd
    have hnone : (Bound.initB dim).getD d none = none := by
      unfold Bound.initB
      rw [List.getD_eq_getElem?_getD, List.getElem?_replicate, if_pos hd]
      rfl
    rw [Bound.getD_unionPt _ _ hd', hnone]
    simp [DRange.widen, DRange.width]
  simp only [buildF]
  by_cases hls : leaf_size < N
  · rw [if_pos hls, hwz]
    rw [if_neg (by norm_num)]
  · rw [if_neg hls]

/-- Witness for C5: three identical 1-dimensional points build into a single
depth-0 leaf even with leaf threshold 1. -/
theorem InitBuild_identical_points_witness :
    InitBuild 1 1 (List.replicate 3 [(2 : ℚ)]) [7, 8, 9] =
      some (KdNode.leaf 0 3 ((Bound.initB 1).unionPt [(2 : ℚ)]),
        List.replicate 3 [(2 : ℚ)], [7, 8, 9]) :=
  InitBuild_identical_points 3 1 1 [(2 : ℚ)] [7, 8, 9] (by decide) (by decide)

/-- Claim C7: for every tree produced by the builder, every point whose
index lies in a node's `(begin, count)` range lies within that node's bound
(the root bound from `FindBoundingBox_`, children bounds from the `|=`
accumulations during partitioning). -/
theorem InitBuild_bound_containment {α : Type} (leaf_size dim : Nat)
    (pts : List Vec) (infos : List α) (tree : KdNode) (pts' : List Vec)
    (infos' : List α)
    (heq : InitBuild leaf_size dim pts infos = some (tree, pts', infos'))
    (hlen : infos.length = pts.length) :
    TreeContains pts' tree := by
  unfold InitBuild at heq
  obtain ⟨_, _, _, _, _, _, _, _, _, _, himp⟩ :=
    buildF_spec leaf_size dim (pts.length + 1) pts infos 0 pts.length _
      tree pts' infos' heq hlen (by omega)
  exact himp (fun j h1 h2 =>
    FindBoundingBox_contains pts 0 pts.length (Bound.initB dim) j h1 (by omega))

/-- Witness for C7: a concrete two-point build; every point of the root's
range lies inside the root bound computed by `FindBoundingBox_`. -/
theorem InitBuild_bound_containment_witness :
    TreeContains [[(0 : ℚ)], [1]] (KdNode.leaf 0 2 [some ((0 : ℚ), 1)]) :=
  InitBuild_bound_containment 20 1 [[(0 : ℚ)], [1]] [0, 1]
    (KdNode.leaf 0 2 [some ((0 : ℚ), 1)])
    [[(0 : ℚ)], [1]] [0, 1] (by decide) (by decide)

/-- Claim C8: partition conservation — in every tree the builder returns,
each internal node's children cover the parent's range contiguously and
disjointly (`left.begin = parent.begin`, `right.begin = left.begin +
left.count`, `left.count + right.count = parent.count`), the root covers
`(0, N)`, and the leaf counts over the whole tree sum to `N`. -/
theorem InitBuild_partition_conservation {α : Type} (leaf_size dim : Nat)
    (pts : List Vec) (infos : List α) (tree : KdNode) (pts' : List Vec)
    (infos' : List α)
    (heq : InitBuild leaf_size dim pts infos = some (tree, pts', infos'))
    (hlen : infos.length = pts.length) :
    tree.nbegin = 0 ∧ tree.ncount = pts.length ∧ tree.childrenOK ∧
      tree.leafSum = pts.length := by
  unfold InitBuild at heq
  obtain ⟨hb, hc, _, _, _, _, _, _, _, hok, _⟩ :=
    buildF_spec leaf_size dim (pts.length + 1) pts infos 0 pts.length _
      tree pts' infos' heq hlen (by omega)
  exact ⟨hb, hc, hok, by rw [leafSum_eq_count tree hok, hc]⟩

/-- Witness for C8: a concrete two-point build; the returned tree covers
the range `(0, 2)` and its leaf counts sum to 2. -/
theorem InitBuild_partition_conservation_witness :
    (KdNode.leaf 0 2 [some ((0 : ℚ), 1)]).nbegin = 0 ∧
    (KdNode.leaf 0 2 [some ((0 : ℚ), 1)]).ncount =
      ([[(0 : ℚ)], [1]] : List Vec).length ∧
    (KdNode.leaf 0 2 [some ((0 : ℚ), 1)]).childrenOK ∧
    (KdNode.leaf 0 2 [some ((0 : ℚ), 1)]).leafSum =
      ([[(0 : ℚ)], [1]] : List Vec).length :=
  InitBuild_partition_conservation 20 1 [[(0 : ℚ)], [1]] [0, 1]
    (KdNode.leaf 0 2 [some ((0 : ℚ), 1)])
    [[(0 : ℚ)], [1]] [0, 1] (by decide) (by decide)
